import Mathlib

/-!
Shallow embedding of the mentat context/edit engine (archive-old-cli-mentat)
for verification of its natural-language specification.

Text is modelled as `Str := List Char` (a transliteration of Python `str`).
Python dicts are modelled as insertion-ordered association lists.
-/

abbrev Str := List Char

/-- The whitespace characters removed by Python `str.strip()` (ASCII subset). -/
def isPySpace (c : Char) : Bool :=
  c = ' ' || c = '\t' || c = '\n' || c = '\r' || c = '\x0b' || c = '\x0c'

/-- Python `str.strip()`: drop leading and trailing whitespace. -/
def pstrip (s : Str) : Str :=
  ((s.dropWhile isPySpace).reverse.dropWhile isPySpace).reverse

section PyDict

variable {α β : Type} [DecidableEq α]

/-- Python dict lookup: `d.get(k)` / `k in d`. First (unique) matching key. -/
def dictGet? (m : List (α × β)) (k : α) : Option β :=
  match m with
  | [] => none
  | (k2, v) :: rest => if k = k2 then some v else dictGet? rest k

/-- Python dict assignment `d[k] = v`: replace in place if the key exists
(keeping its insertion position), otherwise append. -/
def dictInsert (m : List (α × β)) (k : α) (v : β) : List (α × β) :=
  match m with
  | [] => [(k, v)]
  | (k2, v2) :: rest =>
    if k = k2 then (k2, v) :: rest else (k2, v2) :: dictInsert rest k v

end PyDict

/-! ## Code feature model (mentat/code_feature.py is not part of src/)

Modelled from the spec: verbosity levels are ordered
`CODE > INTERVAL > CMAP_FULL > CMAP > FILE_NAME`, with `rank` ascending as
verbosity decreases (the greedy selector tries the most detailed level first).
-/

inductive CodeMessageLevel where
  | code
  | interval
  | cmap_full
  | cmap
  | file_name
deriving DecidableEq

/-- Modelled from the spec: rank of a verbosity level, most verbose first. -/
def CodeMessageLevel.rank : CodeMessageLevel → Nat
  | .code => 0
  | .interval => 1
  | .cmap_full => 2
  | .cmap => 3
  | .file_name => 4

namespace AutoContextM

/-- A code feature as used by `GreedyFeatureSelector.select`
(mentat/auto_context.py): identity data (its path) plus the mutable `level`
field that `select` reassigns while searching for a fitting level.
Token counting (`CodeFeature.count_tokens`) is abstracted as a function
parameter `ct`, deterministic given the feature and its level. -/
structure CodeFeature where
  path : Str
  level : CodeMessageLevel
deriving DecidableEq

/-- Insertion of a level into a rank-sorted list (helper for the
`sorted(list(set(levels) | {feature.level}), key=lambda v: v.rank)` line). -/
def insertByRank (x : CodeMessageLevel) : List CodeMessageLevel → List CodeMessageLevel
  | [] => [x]
  | y :: ys => if x.rank ≤ y.rank then x :: y :: ys else y :: insertByRank x ys

/-- Sorting by `rank` (Python `sorted` with `key=lambda v: v.rank`; ranks of
distinct levels are distinct, so the order is deterministic). -/
def sortByRank (l : List CodeMessageLevel) : List CodeMessageLevel :=
  l.foldr insertByRank []

/-- `_levels = sorted(list(set(levels) | {feature.level}), key=lambda v: v.rank)`
from `GreedyFeatureSelector.select`. -/
def mkLevels (levels : List CodeMessageLevel) (fl : CodeMessageLevel) : List CodeMessageLevel :=
  sortByRank ((fl :: levels).dedup)

/-- The inner `for level in _levels` loop of `GreedyFeatureSelector.select`:
set `feature.level = level` and stop at the first level whose token count
fits in `remaining_tokens`; `none` if no level fits (the feature is skipped). -/
def tryLevels (ct : CodeFeature → Nat) (f : CodeFeature) (remaining : Int) :
    List CodeMessageLevel → Option CodeFeature
  | [] => none
  | l :: ls =>
    let fl : CodeFeature := { f with level := l }
    if (ct fl : Int) ≤ remaining then some fl else tryLevels ct f remaining ls

/-- The outer `for feature in features` loop of `GreedyFeatureSelector.select`,
threading `remaining_tokens` (an `int`, which may be negative when called from
`LLMFeatureSelector`). -/
def selectGo (ct : CodeFeature → Nat) (levels : List CodeMessageLevel) :
    List CodeFeature → Int → List CodeFeature
  | [], _ => []
  | f :: fs, remaining =>
    match tryLevels ct f remaining (mkLevels levels f.level) with
    | some fl => fl :: selectGo ct levels fs (remaining - ct fl)
    | none => selectGo ct levels fs remaining

/-- `GreedyFeatureSelector.select` (mentat/auto_context.py lines 48-70):
greedily keep features, each at the most detailed level that still fits the
remaining token budget. -/
def select (ct : CodeFeature → Nat) (features : List CodeFeature)
    (max_tokens : Int) (levels : List CodeMessageLevel) : List CodeFeature :=
  selectGo ct levels features max_tokens

theorem tryLevels_path (ct : CodeFeature → Nat) (f : CodeFeature) (remaining : Int)
    (ls : List CodeMessageLevel) (fl : CodeFeature)
    (h : tryLevels ct f remaining ls = some fl) : fl.path = f.path := by
  induction ls with
  | nil => simp [tryLevels] at h
  | cons l ls ih =>
    simp only [tryLevels] at h
    split at h
    · cases h; rfl
    · exact ih h

theorem tryLevels_fits (ct : CodeFeature → Nat) (f : CodeFeature) (remaining : Int)
    (ls : List CodeMessageLevel) (fl : CodeFeature)
    (h : tryLevels ct f remaining ls = some fl) : (ct fl : Int) ≤ remaining := by
  induction ls with
  | nil => simp [tryLevels] at h
  | cons l ls ih =>
    simp only [tryLevels] at h
    split at h
    · cases h; assumption
    · exact ih h

theorem selectGo_path (ct : CodeFeature → Nat) (levels : List CodeMessageLevel)
    (fs : List CodeFeature) (remaining : Int) :
    ∀ f ∈ selectGo ct levels fs remaining, ∃ g ∈ fs, f.path = g.path := by
  induction fs generalizing remaining with
  | nil => intro f hf; simp [selectGo] at hf
  | cons g gs ih =>
    intro f hf
    simp only [selectGo] at hf
    rcases hsel : tryLevels ct g remaining (mkLevels levels g.level) with _ | fl
    · rw [hsel] at hf
      obtain ⟨g2, hg2, hp⟩ := ih remaining f hf
      exact ⟨g2, List.mem_cons_of_mem _ hg2, hp⟩
    · rw [hsel] at hf
      rcases List.mem_cons.mp hf with h | h
      · subst h
        exact ⟨g, List.mem_cons_self _ _, tryLevels_path ct g remaining _ f hsel⟩
      · obtain ⟨g2, hg2, hp⟩ := ih _ f h
        exact ⟨g2, List.mem_cons_of_mem _ hg2, hp⟩

theorem selectGo_budget (ct : CodeFeature → Nat) (levels : List CodeMessageLevel)
    (fs : List CodeFeature) (remaining : Int) (hr : 0 ≤ remaining) :
    ((selectGo ct levels fs remaining).map fun f => (ct f : Int)).sum ≤ remaining := by
  induction fs generalizing remaining with
  | nil => simpa [selectGo] using hr
  | cons g gs ih =>
    simp only [selectGo]
    rcases hsel : tryLevels ct g remaining (mkLevels levels g.level) with _ | fl
    · exact ih remaining hr
    · have hfit := tryLevels_fits ct g remaining _ fl hsel
      have h2 : (0 : Int) ≤ remaining - ct fl := by omega
      have := ih (remaining - ct fl) h2
      simp only [List.map_cons, List.sum_cons]
      omega

end AutoContextM

/-! ## Streaming parser (mentat/parsers/parser.py)

`Parser.stream_and_parse_llm_response` is format-parameterized: the
format-specific hooks (`_starts_special`, `_ends_special`, `_ends_code`,
`_special_block`, `_add_code_block`) are abstract methods; they are modelled
as fields of `FormatOps`. The printer (`StreamingPrinter`) and the
print-bookkeeping variables (`line_printed`, `conversation`,
`printed_delimiter`, `previous_file`, `_could_be_special`) only affect what
is rendered to the terminal, not the returned message or edits; they are
omitted, except that the inline report of a `ModelError` is recorded in
`ParseResult.reported_error`.
-/

namespace ParserM

structure ModelError where
  msg : Str
deriving DecidableEq

/-- Modelled from the spec (mentat/parsers/file_edit.py is not part of src/):
a replacement is `(start_line, end_line, new_lines)`. -/
structure Replacement where
  starting_line : Nat
  ending_line : Nat
  new_lines : List Str
deriving DecidableEq

/-- Modelled from the spec (mentat/parsers/file_edit.py is not part of src/):
`FileEdit` is `(path, replacements[], is_creation, is_deletion, rename_to?)`. -/
structure FileEdit where
  file_path : Str
  replacements : List Replacement
  is_creation : Bool
  is_deletion : Bool
  rename_file_path : Option Str
deriving DecidableEq

/-- The fields of `DisplayInformation` that `stream_and_parse_llm_response`
itself reads (`file_name`, `new_name`); the rest only feeds the printer. -/
structure DisplayInformation where
  file_name : Str
  new_name : Option Str
deriving DecidableEq

/-- The format-specific hooks of a `Parser` subclass, plus the ambient
`config.git_root` (and, implicitly, `code_file_manager`/`config`, which are
fixed for the duration of a call). `special_block` may raise `ModelError`
(modelled with `Except`); its `Bool` result is the `in_code_lines` flag. -/
structure FormatOps where
  starts_special : Str → Bool
  ends_special : Str → Bool
  ends_code : Str → Bool
  special_block : List (Str × Str) → Str → Except ModelError (DisplayInformation × FileEdit × Bool)
  add_code_block : Str → Str → DisplayInformation → FileEdit → FileEdit
  git_root : Str

/-- `pathlib`'s `git_root / name`. -/
def joinPath (root p : Str) : Str := root ++ '/' :: p

/-- The merge of two edits to the same path
(parser.py lines 168-179): disjunction of the creation/deletion flags, and
the later block's rename target when it declares one; the existing edit's
replacement list is kept (code blocks are appended to it afterwards). -/
def mergeFileEdit (cur fe : FileEdit) : FileEdit :=
  { cur with
    is_creation := cur.is_creation || fe.is_creation
    is_deletion := cur.is_deletion || fe.is_deletion
    rename_file_path :=
      match fe.rename_file_path with
      | some r => some r
      | none => cur.rename_file_path }

/-- The local state of `stream_and_parse_llm_response`. `file_edit_path`
models the `file_edit` variable: after a successful special block it aliases
the dict entry `file_edits[file_edit.file_path]`, so it is represented by
that key. -/
structure PState where
  message : Str
  cur_line : Str
  prev_block : Str
  cur_block : Str
  display_information : Option DisplayInformation
  file_edit_path : Option Str
  in_special_lines : Bool
  in_code_lines : Bool
  file_edits : List (Str × FileEdit)
  rename_map : List (Str × Str)
deriving DecidableEq

/-- The value returned by `stream_and_parse_llm_response`: the full message,
`file_edits.values()`, and the `ModelError` reported inline (if any). -/
structure ParseResult where
  message : Str
  file_edits : List FileEdit
  reported_error : Option ModelError
deriving DecidableEq

inductive StepRes where
  | done (r : ParseResult)
  | cont (st : PState)
deriving DecidableEq

def initState : PState :=
  { message := []
    cur_line := []
    prev_block := []
    cur_block := []
    display_information := none
    file_edit_path := none
    in_special_lines := false
    in_code_lines := false
    file_edits := []
    rename_map := [] }

/-- The `self._add_code_block(prev_block, cur_block, display_information,
file_edit)` call: it mutates the `FileEdit` aliased by `file_edit`, i.e. the
dict entry at `file_edit_path`; guarded by
`display_information is not None and file_edit is not None`. -/
def addCodeToEdits (fp : FormatOps) (st : PState) : List (Str × FileEdit) :=
  match st.file_edit_path, st.display_information with
  | some key, some di =>
    match dictGet? st.file_edits key with
    | some fe => dictInsert st.file_edits key (fp.add_code_block st.prev_block st.cur_block di fe)
    | none => st.file_edits
  | _, _ => st.file_edits

/-- The body of `if "\n" in cur_line:` in `stream_and_parse_llm_response`
(parser.py lines 119-221), acting on a state whose `message` and `cur_line`
already include the newly arrived content. -/
def handleNewline (fp : FormatOps) (st0 : PState) : StepRes :=
  let stripped := pstrip st0.cur_line
  let st1 : PState :=
    if fp.starts_special stripped then { st0 with in_special_lines := true } else st0
  let st2 : PState :=
    if st1.in_special_lines || st1.in_code_lines then
      { st1 with cur_block := st1.cur_block ++ st1.cur_line }
    else st1
  if st2.in_special_lines && fp.ends_special stripped then
    match fp.special_block st2.rename_map st2.cur_block with
    | .error e =>
      .done { message := st2.message
              file_edits := st2.file_edits.map (fun x => x.2)
              reported_error := some e }
    | .ok (di, fe0, code_follows) =>
      let rename_map :=
        match di.new_name with
        | some n => dictInsert st2.rename_map n di.file_name
        | none => st2.rename_map
      let fe1 :=
        match dictGet? rename_map di.file_name with
        | some old => { fe0 with file_path := joinPath fp.git_root old }
        | none => fe0
      let file_edits :=
        match dictGet? st2.file_edits fe1.file_path with
        | none => dictInsert st2.file_edits fe1.file_path fe1
        | some cur => dictInsert st2.file_edits fe1.file_path (mergeFileEdit cur fe1)
      .cont { st2 with
              in_special_lines := false
              in_code_lines := code_follows
              prev_block := st2.cur_block
              cur_block := []
              rename_map := rename_map
              file_edits := file_edits
              display_information := some di
              file_edit_path := some fe1.file_path
              cur_line := [] }
  else if st2.in_code_lines && fp.ends_code stripped then
    .cont { st2 with
            file_edits := addCodeToEdits fp st2
            in_code_lines := false
            prev_block := st2.cur_block
            cur_block := []
            cur_line := [] }
  else
    .cont { st2 with cur_line := [] }

/-- One iteration of `for content in chunk_to_lines(chunk)`: skip empty
content, extend `message` and `cur_line`, then run the newline handling when
the line is complete. -/
def processContent (fp : FormatOps) (st : PState) (content : Str) : StepRes :=
  if content = [] then .cont st
  else
    let st1 : PState :=
      { st with message := st.message ++ content, cur_line := st.cur_line ++ content }
    if '\n' ∈ st1.cur_line then handleNewline fp st1 else .cont st1

/-- Folding `processContent` over the stream of line fragments; a `done`
result (the early `return` on `ModelError`) absorbs the rest of the stream. -/
def processPieces (fp : FormatOps) : StepRes → List Str → StepRes
  | r, [] => r
  | .done r, _ :: _ => .done r
  | .cont st, p :: ps => processPieces fp (processContent fp st p) ps

/-- The `for ... else` epilogue: close an unterminated code block, then
return `(message, file_edits.values())`. -/
def finishParse (fp : FormatOps) : StepRes → ParseResult
  | .done r => r
  | .cont st =>
    let file_edits := if st.in_code_lines then addCodeToEdits fp st else st.file_edits
    { message := st.message
      file_edits := file_edits.map (fun x => x.2)
      reported_error := none }

/-- Modelled from the spec (mentat/llm_api.py `chunk_to_lines` is not part of
src/): split a chunk into line fragments keeping the terminators, i.e.
Python `splitlines(keepends=True)` restricted to the `\n` terminator. -/
def splitKeepEnds : Str → List Str
  | [] => []
  | c :: cs =>
    if c = '\n' then [c] :: splitKeepEnds cs
    else
      match splitKeepEnds cs with
      | [] => [[c]]
      | p :: ps => (c :: p) :: ps

/-- `Parser.stream_and_parse_llm_response` (parser.py lines 52-241) on a
chunk stream, with the interrupt flag never set. -/
def stream_and_parse_llm_response (fp : FormatOps) (chunks : List Str) : ParseResult :=
  finishParse fp (processPieces fp (.cont initState) (chunks.map splitKeepEnds).flatten)

/-- Character-level reference fold: feed the parser one character at a time. -/
def charFoldGo (fp : FormatOps) : StepRes → Str → StepRes
  | r, [] => r
  | .done r, _ :: _ => .done r
  | .cont st, c :: cs => charFoldGo fp (processContent fp st [c]) cs

/-- A line fragment as produced by `chunk_to_lines`: nonempty, with a newline
possible only in the final position. -/
def goodPiece (p : Str) : Prop := p ≠ [] ∧ ∀ c ∈ p.dropLast, c ≠ '\n'

end ParserM

namespace ParserM

theorem charFoldGo_nil (fp : FormatOps) (r : StepRes) : charFoldGo fp r [] = r := by
  cases r <;> rfl

theorem charFoldGo_done (fp : FormatOps) (r : ParseResult) (l : Str) :
    charFoldGo fp (.done r) l = .done r := by
  cases l <;> rfl

theorem processPieces_done (fp : FormatOps) (r : ParseResult) (ps : List Str) :
    processPieces fp (.done r) ps = .done r := by
  cases ps <;> rfl

theorem charFoldGo_append (fp : FormatOps) (a b : Str) (r : StepRes) :
    charFoldGo fp r (a ++ b) = charFoldGo fp (charFoldGo fp r a) b := by
  induction a generalizing r with
  | nil => rw [List.nil_append, charFoldGo_nil]
  | cons c cs ih =>
    cases r with
    | done r => rw [charFoldGo_done, charFoldGo_done, charFoldGo_done]
    | cont st =>
      rw [List.cons_append]
      show charFoldGo fp (processContent fp st [c]) (cs ++ b) =
        charFoldGo fp (charFoldGo fp (processContent fp st [c]) cs) b
      exact ih _

theorem handleNewline_cur_line (fp : FormatOps) (st st2 : PState)
    (h : handleNewline fp st = .cont st2) : st2.cur_line = [] := by
  simp only [handleNewline] at h
  repeat' split at h
  all_goals first
    | (cases h; rfl)
    | simp at h

theorem processContent_inv (fp : FormatOps) (st st2 : PState) (p : Str)
    (hnl : '\n' ∉ st.cur_line) (h : processContent fp st p = .cont st2) :
    '\n' ∉ st2.cur_line := by
  simp only [processContent] at h
  split at h
  · cases h; exact hnl
  · split at h
    · rw [handleNewline_cur_line fp _ _ h]
      simp
    · rename_i hguard
      cases h
      simpa using hguard

theorem processContent_cons_cons (fp : FormatOps) (st : PState) (c d : Char) (p3 : Str) :
    processContent fp st (c :: d :: p3) =
    processContent fp
      { st with message := st.message ++ [c], cur_line := st.cur_line ++ [c] } (d :: p3) := by
  simp only [processContent]
  rw [if_neg (List.cons_ne_nil c (d :: p3)), if_neg (List.cons_ne_nil d p3)]
  simp only [List.append_assoc, List.singleton_append, List.cons_append, List.nil_append]

theorem processContent_eq_charFold (fp : FormatOps) :
    ∀ (p : Str) (st : PState), goodPiece p → '\n' ∉ st.cur_line →
    processContent fp st p = charFoldGo fp (.cont st) p := by
  intro p
  induction p with
  | nil => intro st hg _; exact absurd rfl hg.1
  | cons c p2 ih =>
    intro st hg hnl
    cases p2 with
    | nil =>
      show processContent fp st [c] = charFoldGo fp (processContent fp st [c]) []
      rw [charFoldGo_nil]
    | cons d p3 =>
      have hc : c ≠ '\n' := by
        refine hg.2 c ?_
        show c ∈ (c :: d :: p3).dropLast
        rw [List.dropLast_cons₂]
        exact List.mem_cons_self _ _
      have hg2 : goodPiece (d :: p3) := by
        refine ⟨by simp, fun x hx => hg.2 x ?_⟩
        rw [List.dropLast_cons₂]
        exact List.mem_cons_of_mem _ hx
      have hnlc : ¬ '\n' ∈ st.cur_line ++ [c] := by
        intro hmem
        rcases List.mem_append.mp hmem with h1 | h1
        · exact hnl h1
        · exact hc (List.mem_singleton.mp h1).symm
      have h1 : processContent fp st [c] =
          .cont { st with message := st.message ++ [c], cur_line := st.cur_line ++ [c] } := by
        unfold processContent
        rw [if_neg (by simp)]
        exact if_neg hnlc
      have hrhs : charFoldGo fp (.cont st) (c :: d :: p3) =
          charFoldGo fp (processContent fp st [c]) (d :: p3) := rfl
      rw [hrhs, h1, ← ih _ hg2 (by simpa using hnlc)]
      exact processContent_cons_cons fp st c d p3

end ParserM

namespace ParserM

theorem processPieces_eq_charFold (fp : FormatOps) (ps : List Str) :
    ∀ (st : PState), (∀ p ∈ ps, goodPiece p) → '\n' ∉ st.cur_line →
    processPieces fp (.cont st) ps = charFoldGo fp (.cont st) ps.flatten := by
  induction ps with
  | nil => intro st _ _; rfl
  | cons p ps ih =>
    intro st hg hnl
    have hstep : processPieces fp (.cont st) (p :: ps) =
        processPieces fp (processContent fp st p) ps := rfl
    rw [hstep, List.flatten_cons, charFoldGo_append,
      ← processContent_eq_charFold fp p st (hg p (List.mem_cons_self _ _)) hnl]
    cases hres : processContent fp st p with
    | done r => rw [processPieces_done, charFoldGo_done]
    | cont st2 =>
      exact ih st2 (fun q hq => hg q (List.mem_cons_of_mem _ hq))
        (processContent_inv fp st st2 p hnl hres)

theorem splitKeepEnds_flatten (s : Str) : (splitKeepEnds s).flatten = s := by
  induction s with
  | nil => rfl
  | cons c cs ih =>
    simp only [splitKeepEnds]
    split
    · simp only [List.flatten_cons]
      rw [ih, List.singleton_append]
    · split
      · rename_i hemp
        rw [hemp] at ih
        simp only [List.flatten] at ih
        simp [← ih]
      · rename_i p ps hps
        rw [hps] at ih
        simp only [List.flatten_cons] at ih ⊢
        rw [List.cons_append, ih]

theorem splitKeepEnds_good (s : Str) : ∀ p ∈ splitKeepEnds s, goodPiece p := by
  induction s with
  | nil => intro p hp; simp [splitKeepEnds] at hp
  | cons c cs ih =>
    intro p hp
    simp only [splitKeepEnds] at hp
    split at hp
    · rcases List.mem_cons.mp hp with h | h
      · subst h
        exact ⟨by simp, by simp⟩
      · exact ih p h
    · rename_i hc
      split at hp
      · rcases List.mem_cons.mp hp with h | h
        · subst h
          exact ⟨by simp, by simp [hc]⟩
        · simp at h
      · rename_i q qs hqs
        rcases List.mem_cons.mp hp with h | h
        · subst h
          have hq : goodPiece q := ih q (by rw [hqs]; exact List.mem_cons_self _ _)
          refine ⟨by simp, ?_⟩
          intro x hx
          rw [List.dropLast_cons_of_ne_nil hq.1] at hx
          rcases List.mem_cons.mp hx with h2 | h2
          · subst h2; exact hc
          · exact hq.2 x h2
        · exact ih p (by rw [hqs]; exact List.mem_cons_of_mem _ h)

theorem chunks_pieces_flatten (chunks : List Str) :
    ((chunks.map splitKeepEnds).flatten).flatten = chunks.flatten := by
  induction chunks with
  | nil => rfl
  | cons c cs ih =>
    simp only [List.map_cons, List.flatten_cons, List.flatten_append, ih]
    rw [splitKeepEnds_flatten]

theorem chunks_pieces_good (chunks : List Str) :
    ∀ p ∈ (chunks.map splitKeepEnds).flatten, goodPiece p := by
  intro p hp
  obtain ⟨l, hl, hpl⟩ := List.mem_flatten.mp hp
  obtain ⟨s, _, hs⟩ := List.mem_map.mp hl
  exact splitKeepEnds_good s p (hs ▸ hpl)

/-- C2: `stream_and_parse_llm_response`, as a function of the chunk stream,
factors through the concatenation of the chunks: any two segmentations of
the same response yield the same result. -/
theorem stream_parse_factors (fp : FormatOps) (chunks : List Str) :
    stream_and_parse_llm_response fp chunks =
    finishParse fp (charFoldGo fp (.cont initState) chunks.flatten) := by
  unfold stream_and_parse_llm_response
  rw [processPieces_eq_charFold fp _ initState (chunks_pieces_good chunks) (by simp [initState]),
    chunks_pieces_flatten]

end ParserM

namespace ParserM

/-- C2: For any two chunk sequences whose concatenated bytes are the same LLM
response, `stream_and_parse_llm_response` produces the same returned message
and the same `FileEdit` set (and the same inline error report), for every
parser format. -/
theorem stream_and_parse_chunking_independent (fp : FormatOps) (chunks1 chunks2 : List Str)
    (h : chunks1.flatten = chunks2.flatten) :
    stream_and_parse_llm_response fp chunks1 = stream_and_parse_llm_response fp chunks2 := by
  rw [stream_parse_factors, stream_parse_factors, h]

/-- A concrete format instance (all hooks trivial) for exercising the parser
model on closed inputs. -/
def trivialOps : FormatOps :=
  { starts_special := fun _ => false
    ends_special := fun _ => false
    ends_code := fun _ => false
    special_block := fun _ _ => .error { msg := [] }
    add_code_block := fun _ _ _ fe => fe
    git_root := [] }

/-- Witness for C2: two different segmentations of the bytes `abc\nd`. -/
theorem stream_and_parse_chunking_independent_witness :
    ([['a', 'b'], ['c', '\n', 'd']] : List Str).flatten =
      ([['a'], ['b', 'c'], ['\n', 'd']] : List Str).flatten ∧
    stream_and_parse_llm_response trivialOps [['a', 'b'], ['c', '\n', 'd']] =
      stream_and_parse_llm_response trivialOps [['a'], ['b', 'c'], ['\n', 'd']] :=
  ⟨by decide, stream_and_parse_chunking_independent trivialOps _ _ (by decide)⟩

/-- C6: if a line completes a special block whose header is malformed
(`_special_block` raises `ModelError`), the parser reports the error inline
and returns normally with exactly the edits accumulated before the malformed
block, ignoring the rest of the stream. -/
theorem stream_parse_model_error (fp : FormatOps) (st : PState) (p : Str)
    (rest : List Str) (e : ModelError)
    (hp : p ≠ [])
    (hnl : '\n' ∈ st.cur_line ++ p)
    (hsp : st.in_special_lines = true ∨ fp.starts_special (pstrip (st.cur_line ++ p)) = true)
    (hend : fp.ends_special (pstrip (st.cur_line ++ p)) = true)
    (herr : fp.special_block st.rename_map (st.cur_block ++ (st.cur_line ++ p)) = .error e) :
    finishParse fp (processPieces fp (.cont st) (p :: rest)) =
      { message := st.message ++ p
        file_edits := st.file_edits.map (fun x => x.2)
        reported_error := some e } := by
  have h1 : processContent fp st p = handleNewline fp
      { st with message := st.message ++ p, cur_line := st.cur_line ++ p } := by
    simp only [processContent]
    rw [if_neg hp, if_pos hnl]
  have h2 : handleNewline fp { st with message := st.message ++ p, cur_line := st.cur_line ++ p } =
      .done { message := st.message ++ p
              file_edits := st.file_edits.map (fun x => x.2)
              reported_error := some e } := by
    by_cases hss : fp.starts_special (pstrip (st.cur_line ++ p)) = true
    · simp only [handleNewline]
      rw [if_pos hss]
      simp only [Bool.true_or, if_pos]
      rw [if_pos (by simp [hend]), herr]
    · have hin : st.in_special_lines = true := by
        rcases hsp with h | h
        · exact h
        · exact absurd h hss
      simp only [handleNewline]
      rw [if_neg hss]
      simp only [hin, Bool.true_or, if_pos]
      rw [if_pos (by simp [hin, hend]), herr]
  have h3 : processPieces fp (.cont st) (p :: rest) =
      processPieces fp (processContent fp st p) rest := rfl
  rw [h3, h1, h2, processPieces_done]
  rfl

end ParserM

namespace ParserM

/-- A concrete format whose `special_block` always raises `ModelError`,
with `@@`-delimited special lines. -/
def erroringOps : FormatOps :=
  { starts_special := fun s => s = ['@', '@']
    ends_special := fun s => s = ['@', '@']
    ends_code := fun _ => false
    special_block := fun _ _ => .error { msg := ['b', 'a', 'd'] }
    add_code_block := fun _ _ _ fe => fe
    git_root := ['r'] }

/-- An already accumulated edit for the C6 witness state. -/
def priorEdit : FileEdit :=
  { file_path := ['f']
    replacements := []
    is_creation := true
    is_deletion := false
    rename_file_path := none }

/-- A parser state that has already accumulated one `FileEdit`. -/
def priorState : PState :=
  { initState with
    message := ['h', 'i', '\n']
    file_edits := [(['f'], priorEdit)] }

/-- Witness for C6 at a concrete malformed special block. -/
theorem stream_parse_model_error_witness :
    ((['@', '@', '\n'] : Str) ≠ [] ∧
      '\n' ∈ priorState.cur_line ++ ['@', '@', '\n'] ∧
      (priorState.in_special_lines = true ∨
        erroringOps.starts_special (pstrip (priorState.cur_line ++ ['@', '@', '\n'])) = true) ∧
      erroringOps.ends_special (pstrip (priorState.cur_line ++ ['@', '@', '\n'])) = true) ∧
    finishParse erroringOps
        (processPieces erroringOps (.cont priorState) [['@', '@', '\n'], ['x', '\n']]) =
      { message := priorState.message ++ ['@', '@', '\n']
        file_edits := [priorEdit]
        reported_error := some { msg := ['b', 'a', 'd'] } } :=
  ⟨⟨by decide, by decide, by decide, by decide⟩,
    stream_parse_model_error erroringOps priorState ['@', '@', '\n'] [['x', '\n']]
      { msg := ['b', 'a', 'd'] } (by decide) (by decide) (by decide) (by decide) rfl⟩

/-! ### Merging of edits to the same path (C5)

The merge itself is parser.py lines 164-179 (`mergeFileEdit` above). The
shape of what each special block contributes is modelled from the spec for
the block edit format (mentat/parsers/block_parser.py is not part of src/):
`_special_block` returns a `FileEdit` whose replacement list is empty, and
the code block that follows (if any) appends its parsed replacements to the
current merged edit via `_add_code_block`.
-/

/-- What one special block (plus its code block) contributes to the edit of
its resolved path: the flags and rename target of the `FileEdit` returned by
`_special_block`, and the replacements appended by `_add_code_block`. -/
structure BlockOutcome where
  is_creation : Bool
  is_deletion : Bool
  rename_file_path : Option Str
  code_replacements : List Replacement
deriving DecidableEq

/-- The partial `FileEdit` produced by `_special_block` for a block that
resolves to path `p` (empty replacement list; modelled from the spec). -/
def blockEdit (p : Str) (b : BlockOutcome) : FileEdit :=
  { file_path := p
    replacements := []
    is_creation := b.is_creation
    is_deletion := b.is_deletion
    rename_file_path := b.rename_file_path }

/-- Processing one further special block against the existing edit for the
same path: the merge of parser.py lines 164-179, then the `_add_code_block`
append of the block's replacements. -/
def applyBlock (cur : FileEdit) (b : BlockOutcome) : FileEdit :=
  let merged := mergeFileEdit cur (blockEdit cur.file_path b)
  { merged with replacements := merged.replacements ++ b.code_replacements }

/-- All of a response's special blocks that resolve to the same path `p`, in
stream order: the first (`b`) creates the dict entry
(`file_edits[file_edit.file_path] = file_edit`, then its code block is
appended), subsequent ones (`bs`) are merged into it. -/
def processSamePathBlocks (p : Str) (b : BlockOutcome) (bs : List BlockOutcome) : FileEdit :=
  bs.foldl applyBlock { blockEdit p b with replacements := b.code_replacements }

theorem getLast?_filterMap_cons {α β : Type} (f : α → Option β) (x : α) (l : List α) :
    ((x :: l).filterMap f).getLast? =
    match (l.filterMap f).getLast? with
    | some r => some r
    | none => f x := by
  rw [List.filterMap_cons]
  cases hfx : f x with
  | none =>
    cases hl : (l.filterMap f).getLast? with
    | none => simp [hfx]
    | some r => simp [hl]
  | some y =>
    cases hl : (l.filterMap f).getLast? with
    | none =>
      have hnil : l.filterMap f = [] := by
        cases hm : l.filterMap f with
        | nil => rfl
        | cons z zs => rw [hm] at hl; simp [List.getLast?_concat] at hl
      simp [hnil]
    | some r =>
      cases hm : l.filterMap f with
      | nil => rw [hm] at hl; simp at hl
      | cons z zs =>
        rw [hm] at hl
        rw [List.getLast?_cons_cons, hl]

theorem foldl_applyBlock_spec (bs : List BlockOutcome) :
    ∀ cur : FileEdit,
    (bs.foldl applyBlock cur).file_path = cur.file_path ∧
    (bs.foldl applyBlock cur).is_creation =
      (cur.is_creation || bs.any fun x => x.is_creation) ∧
    (bs.foldl applyBlock cur).is_deletion =
      (cur.is_deletion || bs.any fun x => x.is_deletion) ∧
    (bs.foldl applyBlock cur).rename_file_path =
      (match (bs.filterMap fun x => x.rename_file_path).getLast? with
        | some r => some r
        | none => cur.rename_file_path) ∧
    (bs.foldl applyBlock cur).replacements =
      cur.replacements ++ ((bs.map fun x => x.code_replacements).flatten) := by
  induction bs with
  | nil => intro cur; refine ⟨rfl, by simp, by simp, by simp, by simp⟩
  | cons x bs ih =>
    intro cur
    have hx : applyBlock cur x =
        { file_path := cur.file_path
          replacements := cur.replacements ++ x.code_replacements
          is_creation := cur.is_creation || x.is_creation
          is_deletion := cur.is_deletion || x.is_deletion
          rename_file_path :=
            match x.rename_file_path with
            | some r => some r
            | none => cur.rename_file_path } := rfl
    obtain ⟨h1, h2, h3, h4, h5⟩ := ih (applyBlock cur x)
    refine ⟨?_, ?_, ?_, ?_, ?_⟩
    · rw [List.foldl_cons, h1, hx]
    · rw [List.foldl_cons, h2, hx, List.any_cons]
      simp [Bool.or_assoc]
    · rw [List.foldl_cons, h3, hx, List.any_cons]
      simp [Bool.or_assoc]
    · rw [List.foldl_cons, h4, hx, getLast?_filterMap_cons]
      cases (bs.filterMap fun x => x.rename_file_path).getLast? <;> rfl
    · rw [List.foldl_cons, h5, hx, List.map_cons, List.flatten_cons, List.append_assoc]

/-- C5: two or more special blocks resolving to the same path merge into a
single `FileEdit` whose creation/deletion flags are the disjunctions of the
blocks' flags, whose rename target comes from the latest block that declared
one, and whose replacement list is the concatenation of the blocks'
replacement lists, in stream order. -/
theorem processSamePathBlocks_spec (p : Str) (b : BlockOutcome) (bs : List BlockOutcome) :
    (processSamePathBlocks p b bs).file_path = p ∧
    (processSamePathBlocks p b bs).is_creation = ((b :: bs).any fun x => x.is_creation) ∧
    (processSamePathBlocks p b bs).is_deletion = ((b :: bs).any fun x => x.is_deletion) ∧
    (processSamePathBlocks p b bs).rename_file_path =
      ((b :: bs).filterMap fun x => x.rename_file_path).getLast? ∧
    (processSamePathBlocks p b bs).replacements =
      ((b :: bs).map fun x => x.code_replacements).flatten := by
  obtain ⟨h1, h2, h3, h4, h5⟩ :=
    foldl_applyBlock_spec bs { blockEdit p b with replacements := b.code_replacements }
  unfold processSamePathBlocks
  refine ⟨h1, ?_, ?_, ?_, ?_⟩
  · rw [h2, List.any_cons]; rfl
  · rw [h3, List.any_cons]; rfl
  · rw [h4, getLast?_filterMap_cons]
    cases (bs.filterMap fun x => x.rename_file_path).getLast? <;> rfl
  · rw [h5, List.map_cons, List.flatten_cons]

end ParserM

namespace AutoContextM

/-- C1: `GreedyFeatureSelector.select` fabricates no features - every
returned feature is one of the input features (same identity, at the level
the selector assigned it) - and the sum of `count_tokens` over the returned
features, at the levels they end up with, is at most `max_tokens`. -/
theorem select_no_fabrication_and_within_budget (ct : CodeFeature → Nat)
    (features : List CodeFeature) (max_tokens : Int) (levels : List CodeMessageLevel)
    (h : 0 ≤ max_tokens) :
    (∀ f ∈ select ct features max_tokens levels, ∃ g ∈ features, f.path = g.path) ∧
    ((select ct features max_tokens levels).map fun f => (ct f : Int)).sum ≤ max_tokens :=
  ⟨selectGo_path ct levels features max_tokens,
    selectGo_budget ct levels features max_tokens h⟩

/-- A concrete token counter for the C1 witness. -/
def ctEx : CodeFeature → Nat := fun f => f.level.rank + 1

/-- A concrete feature for the C1 witness. -/
def featEx : CodeFeature := { path := ['a'], level := .code }

/-- Witness for C1 at a concrete input. -/
theorem select_no_fabrication_and_within_budget_witness :
    (0 : Int) ≤ 3 ∧
    ((∀ f ∈ select ctEx [featEx] 3 [], ∃ g ∈ [featEx], f.path = g.path) ∧
      ((select ctEx [featEx] 3 []).map fun f => (ctEx f : Int)).sum ≤ 3) :=
  ⟨by decide, select_no_fabrication_and_within_budget ctEx [featEx] 3 [] (by decide)⟩

end AutoContextM

/-! ## Code context (mentat/code_context.py): caching, message assembly,
include files -/

namespace CodeContextM

/-- `CodeContextSettings` (code_context.py lines 29-35). -/
structure CodeContextSettings where
  diff : Option Str
  pr_diff : Option Str
  no_code_map : Bool
  use_embedding : Bool
  auto_tokens : Option Int
deriving DecidableEq

/-- The data hashed by `CodeContext._get_code_message_checksum`
(code_context.py lines 133-150). `sha256` and `str(...)` are modelled as an
injective encoding, so the checksum is represented by the data flowing into
it: the active features' file checksums (empty marker when `self.features`
is empty), and `attr.asdict(self.settings)` extended with `max_tokens` and
`include_files`. The `prompt` is not among the inputs. -/
structure CodeMessageChecksum where
  features_part : Str
  settings : CodeContextSettings
  max_tokens : Option Int
  include_files : List Str
deriving DecidableEq

/-- The slice of `CodeContext` state read and written by `get_code_message`.
Features and include files are represented by their paths. -/
structure CodeContextState where
  settings : CodeContextSettings
  include_files : List Str
  features : List Str
  code_message : Option Str
  code_message_checksum : Option CodeMessageChecksum
deriving DecidableEq

/-- `CodeContext._get_code_message_checksum` (code_context.py lines 133-150),
with `code_file_manager.get_file_checksum` abstracted as `fileCk`; the set
of feature files is modelled in first-occurrence order (`dedup`). -/
def getCodeMessageChecksum (fileCk : Str → Str) (st : CodeContextState)
    (max_tokens : Option Int) : CodeMessageChecksum :=
  { features_part :=
      if st.features = [] then [] else ((st.features.dedup).map fileCk).flatten
    settings := st.settings
    max_tokens := max_tokens
    include_files := st.include_files }

/-- `CodeContext.get_code_message` (code_context.py lines 152-165), with the
underlying `_get_code_message` computation abstracted as `compute` (from the
prompt and `max_tokens` to the new message and the new `self.features`).
Recomputes when nothing is cached or the checksum changed; note that the
checksum is recomputed after `_get_code_message`, since the latter updates
`self.features`. -/
def get_code_message (fileCk : Str → Str) (compute : Str → Int → Str × List Str)
    (st : CodeContextState) (prompt : Str) (max_tokens : Int) : Str × CodeContextState :=
  let cks := getCodeMessageChecksum fileCk st (some max_tokens)
  if st.code_message = none ∨ some cks ≠ st.code_message_checksum then
    let mf := compute prompt max_tokens
    let st1 : CodeContextState := { st with code_message := some mf.1, features := mf.2 }
    let st2 : CodeContextState :=
      { st1 with
        code_message_checksum := some (getCodeMessageChecksum fileCk st1 (some max_tokens)) }
    (mf.1, st2)
  else
    (match st.code_message with | some m => m | none => [], st)

/-- A concrete file-checksum function for the C3 instances. -/
def fileCkEx : Str → Str := fun s => s

/-- A concrete `_get_code_message` stand-in whose output depends on the
prompt. -/
def computeEx : Str → Int → Str × List Str := fun prompt _ => (prompt, [['f']])

/-- A fresh `CodeContext` state (nothing cached). -/
def ctxEx0 : CodeContextState :=
  { settings :=
      { diff := none, pr_diff := none, no_code_map := false
        use_embedding := false, auto_tokens := none }
    include_files := []
    features := []
    code_message := none
    code_message_checksum := none }

/-- Counterexample to C3: after a call with prompt `a`, a second call with
prompt `b` and everything else unchanged returns the cached message `a`
instead of recomputing (which would give `b`): the prompt is not part of the
cache key. -/
theorem get_code_message_prompt_not_in_key :
    (get_code_message fileCkEx computeEx
        (get_code_message fileCkEx computeEx ctxEx0 ['a'] 100).2 ['b'] 100).1 = ['a'] ∧
    (computeEx ['b'] 100).1 = ['b'] ∧ (['a'] : Str) ≠ ['b'] := by
  decide

/-- C3 amended: the cache key consists of the feature file checksums, the
settings, `max_tokens` and the include set - the prompt is excluded. If a
message is cached and that key is unchanged, `get_code_message` returns the
cached message, whatever the prompt is; the prompt alone never invalidates
the cache. -/
theorem get_code_message_cache_hit (fileCk : Str → Str)
    (compute : Str → Int → Str × List Str) (st : CodeContextState)
    (prompt : Str) (max_tokens : Int) (m : Str)
    (hm : st.code_message = some m)
    (hc : st.code_message_checksum = some (getCodeMessageChecksum fileCk st (some max_tokens))) :
    get_code_message fileCk compute st prompt max_tokens = (m, st) := by
  unfold get_code_message
  rw [if_neg, hm]
  push_neg
  exact ⟨by simp [hm], by rw [hc]⟩

/-- Witness for C3 amended: the state cached by a first call with prompt `a`
is served unchanged to a call with prompt `b`. -/
theorem get_code_message_cache_hit_witness :
    ((get_code_message fileCkEx computeEx ctxEx0 ['a'] 100).2.code_message = some ['a'] ∧
      (get_code_message fileCkEx computeEx ctxEx0 ['a'] 100).2.code_message_checksum =
        some (getCodeMessageChecksum fileCkEx
          (get_code_message fileCkEx computeEx ctxEx0 ['a'] 100).2 (some 100))) ∧
    get_code_message fileCkEx computeEx
        (get_code_message fileCkEx computeEx ctxEx0 ['a'] 100).2 ['b'] 100 =
      (['a'], (get_code_message fileCkEx computeEx ctxEx0 ['a'] 100).2) :=
  ⟨⟨by decide, by decide⟩,
    get_code_message_cache_hit fileCkEx computeEx _ ['b'] 100 ['a'] (by decide) (by decide)⟩

end CodeContextM

namespace CodeContextM

/-- Python `"\n".join(...)`. -/
def joinNL (l : List Str) : Str := List.intercalate ['\n'] l

/-- The inputs of `CodeContext._get_code_message` (code_context.py lines
167-201) that are fixed during one call. Features are represented by their
paths; `count_tokens` (llm_api.py is not part of src/),
`count_feature_tokens`, `f.get_code_message()` and
`self._get_auto_features(...)` are abstracted as functions. -/
structure CodeMessageEnv where
  countTokens : Str → Nat
  featureTokens : Str → Nat
  featureMessage : Str → List Str
  autoFeatures : Int → List Str
  diffFiles : Bool
  diffName : Str
  includeFeatures : List Str
  auto_tokens : Option Int

/-- The metadata lines of the code message: the diff legend (when
`self.diff_context.files` is nonempty) and the `Code Files:` header
(code_context.py lines 177-184). -/
def metadataLines (env : CodeMessageEnv) : List Str :=
  (if env.diffFiles then
    ["Diff References:".data,
      (" \"-\" = ".data ++ env.diffName),
      " \"+\" = Active Changes".data,
      "".data]
  else []) ++ ["Code Files:\n".data]

/-- `CodeContext._get_code_message` (code_context.py lines 167-201): build
the metadata lines, compute `include_feature_tokens` (the include features'
token sum minus the metadata's token count), set `_max_auto =
max(0, max_tokens - include_feature_tokens)`, and skip auto-context exactly
when `_max_auto == 0 or self.settings.auto_tokens == 0`, in which case the
active features are the user-included ones. Returns the joined message and
the new `self.features`. -/
def getCodeMessageBody (env : CodeMessageEnv) (max_tokens : Int) : Str × List Str :=
  let code_message := metadataLines env
  let features := env.includeFeatures
  let include_feature_tokens : Int :=
    ((features.map env.featureTokens).sum : Int) - env.countTokens (joinNL code_message)
  let _max_auto : Int := max 0 (max_tokens - include_feature_tokens)
  let _max_user : Option Int := env.auto_tokens
  let features2 :=
    if _max_auto = 0 ∨ _max_user = some 0 then features
    else env.autoFeatures (match _max_user with | none => _max_auto | some u => min _max_auto u)
  (joinNL (code_message ++ (features2.map env.featureMessage).flatten), features2)

/-- A concrete environment on which `max_tokens - tokens(metadata)` is
negative: no diff, no include files, `auto_tokens = 0`. -/
def envC4 : CodeMessageEnv :=
  { countTokens := fun s => s.length
    featureTokens := fun _ => 0
    featureMessage := fun _ => []
    autoFeatures := fun _ => []
    diffFiles := false
    diffName := []
    includeFeatures := []
    auto_tokens := some 0 }

/-- Counterexample to C4: with `max_tokens = 0` the premise
`max_tokens - tokens(metadata) < 0` holds, and the active feature list is
indeed empty, but the returned code message is the `Code Files:` header, not
the empty string: `_get_code_message` has no early return for a negative
metadata budget. -/
theorem getCodeMessage_negative_budget_not_empty :
    ((0 : Int) - envC4.countTokens (joinNL (metadataLines envC4)) < 0) ∧
    (getCodeMessageBody envC4 0).2 = [] ∧
    (getCodeMessageBody envC4 0).1 = "Code Files:\n".data ∧
    (getCodeMessageBody envC4 0).1 ≠ [] := by
  decide

theorem joinNL_ne_nil (l : List Str) (x : Str) (hx : x ∈ l) (hne : x ≠ []) :
    joinNL l ≠ [] := by
  match l, hx with
  | [a], hx =>
    have hxa : x = a := by simpa using hx
    subst hxa
    simpa [joinNL, List.intercalate] using hne
  | a :: b :: t, _ =>
    intro hcontra
    rw [joinNL, List.intercalate, List.intersperse_cons_cons, List.flatten_cons,
      List.flatten_cons] at hcontra
    rcases List.append_eq_nil.mp hcontra with ⟨_, h2⟩
    rcases List.append_eq_nil.mp h2 with ⟨h3, _⟩
    exact List.cons_ne_nil _ _ h3

/-- C4 amended: `_get_code_message` has no special case for a negative
`max_tokens - tokens(metadata)`; instead, whenever the auto budget
`max(0, max_tokens - include_feature_tokens)` is 0 (in particular whenever
`max_tokens ≤ include_feature_tokens`, which holds when `max_tokens` minus
the metadata token count is at most the include features' token sum) or
`auto_tokens` is 0, the active features are set to exactly the user-included
features - the empty list only when nothing is included - and the returned
message is the metadata lines followed by those features' code messages; it
always contains the `Code Files:` header line and is never empty. -/
theorem getCodeMessage_skip_auto (env : CodeMessageEnv) (max_tokens : Int)
    (h : max_tokens ≤
        ((env.includeFeatures.map env.featureTokens).sum : Int) -
          env.countTokens (joinNL (metadataLines env)) ∨
      env.auto_tokens = some 0) :
    (getCodeMessageBody env max_tokens).2 = env.includeFeatures ∧
    (getCodeMessageBody env max_tokens).1 =
      joinNL (metadataLines env ++ (env.includeFeatures.map env.featureMessage).flatten) ∧
    (getCodeMessageBody env max_tokens).1 ≠ [] := by
  have hcond : max 0 (max_tokens -
      (((env.includeFeatures.map env.featureTokens).sum : Int) -
        env.countTokens (joinNL (metadataLines env)))) = 0 ∨
      env.auto_tokens = some 0 := by
    rcases h with h | h
    · exact Or.inl (by omega)
    · exact Or.inr h
  have hbody : getCodeMessageBody env max_tokens =
      (joinNL (metadataLines env ++ (env.includeFeatures.map env.featureMessage).flatten),
        env.includeFeatures) := by
    simp only [getCodeMessageBody]
    rw [if_pos hcond]
  refine ⟨by rw [hbody], by rw [hbody], ?_⟩
  rw [hbody]
  refine joinNL_ne_nil _ ("Code Files:\n".data) ?_ (by decide)
  rw [metadataLines]
  exact List.mem_append.mpr (Or.inl (List.mem_append.mpr (Or.inr (List.mem_singleton.mpr rfl))))

/-- Witness for C4 amended, at `envC4` with `max_tokens = 0`. -/
theorem getCodeMessage_skip_auto_witness :
    ((0 : Int) ≤
        ((envC4.includeFeatures.map envC4.featureTokens).sum : Int) -
          envC4.countTokens (joinNL (metadataLines envC4)) ∨
      envC4.auto_tokens = some 0) ∧
    ((getCodeMessageBody envC4 0).2 = envC4.includeFeatures ∧
      (getCodeMessageBody envC4 0).1 =
        joinNL (metadataLines envC4 ++ (envC4.includeFeatures.map envC4.featureMessage).flatten) ∧
      (getCodeMessageBody envC4 0).1 ≠ []) :=
  ⟨Or.inr (by decide), getCodeMessage_skip_auto envC4 0 (Or.inr (by decide))⟩

end CodeContextM

namespace CodeContextM

theorem dictGet?_dictInsert {β : Type} (m : List (Str × β)) (k p : Str) (v : β) :
    dictGet? (dictInsert m k v) p = if p = k then some v else dictGet? m p := by
  induction m with
  | nil => simp only [dictInsert, dictGet?]
  | cons kv rest ih =>
    obtain ⟨k2, v2⟩ := kv
    simp only [dictInsert]
    by_cases hk : k = k2
    · subst hk
      rw [if_pos rfl]
      simp only [dictGet?]
      by_cases hp : p = k <;> simp [hp]
    · rw [if_neg hk]
      simp only [dictGet?, ih]
      by_cases hp : p = k2
      · subst hp
        rw [if_pos rfl, if_neg (fun he => hk he.symm), if_pos rfl]
      · rw [if_neg hp, if_neg hp]

/-- The `for new_path, new_file in paths.items(): if new_path not in
self.include_files: self.include_files[new_path] = new_file` loop of
`CodeContext.include_file`. -/
def addMissing {β : Type} (m : List (Str × β)) (pairs : List (Str × β)) : List (Str × β) :=
  pairs.foldl
    (fun acc pf => if (dictGet? acc pf.1).isNone then dictInsert acc pf.1 pf.2 else acc) m

/-- `CodeContext.include_file` (code_context.py lines 307-312), with
`get_include_files([path], [])` abstracted as the function `g` of the path
(it reads only its argument and the filesystem, which is fixed during a
call). Returns the new `include_files` dict, `list(paths.keys())` and the
invalid paths. -/
def include_file {β : Type} (g : Str → List (Str × β) × List Str)
    (include_files : List (Str × β)) (path : Str) :
    (List (Str × β)) × List Str × List Str :=
  (addMissing include_files (g path).1, ((g path).1.map fun pf => pf.1), (g path).2)

theorem addMissing_preserves {β : Type} (pairs : List (Str × β)) :
    ∀ (m : List (Str × β)) (p : Str) (v : β), dictGet? m p = some v →
    dictGet? (addMissing m pairs) p = some v := by
  induction pairs with
  | nil => intro m p v h; exact h
  | cons pf rest ih =>
    intro m p v h
    show dictGet?
      (addMissing (if (dictGet? m pf.1).isNone then dictInsert m pf.1 pf.2 else m) rest) p =
        some v
    rcases hq : dictGet? m pf.1 with _ | w
    · simp only [Option.isNone_none, if_pos]
      refine ih _ p v ?_
      rw [dictGet?_dictInsert,
        if_neg (fun hpk => by rw [hpk, hq] at h; cases h)]
      exact h
    · simp only [Option.isNone_some, Bool.false_eq_true, if_false]
      exact ih m p v h

theorem addMissing_mem {β : Type} (pairs : List (Str × β)) :
    ∀ (m : List (Str × β)), ∀ pf ∈ pairs, (dictGet? (addMissing m pairs) pf.1).isSome := by
  induction pairs with
  | nil => intro m pf hpf; cases hpf
  | cons q rest ih =>
    intro m pf hpf
    rcases List.mem_cons.mp hpf with h | h
    · subst h
      show (dictGet?
        (addMissing (if (dictGet? m pf.1).isNone then dictInsert m pf.1 pf.2 else m) rest)
          pf.1).isSome
      rcases hq : dictGet? m pf.1 with _ | w
      · simp only [Option.isNone_none, if_pos]
        have h2 : dictGet? (dictInsert m pf.1 pf.2) pf.1 = some pf.2 := by
          rw [dictGet?_dictInsert, if_pos rfl]
        rw [addMissing_preserves rest _ pf.1 pf.2 h2]
        rfl
      · simp only [Option.isNone_some, Bool.false_eq_true, if_false]
        rw [addMissing_preserves rest m pf.1 w hq]
        rfl
    · exact ih _ pf h

theorem addMissing_noop {β : Type} (pairs : List (Str × β)) :
    ∀ (m : List (Str × β)), (∀ pf ∈ pairs, (dictGet? m pf.1).isSome) →
    addMissing m pairs = m := by
  induction pairs with
  | nil => intro m _; rfl
  | cons q rest ih =>
    intro m hall
    show addMissing (if (dictGet? m q.1).isNone then dictInsert m q.1 q.2 else m) rest = m
    have hsome := hall q (List.mem_cons_self _ _)
    rw [if_neg (by rw [Option.isNone_iff_eq_none]; intro he; rw [he] at hsome; cases hsome)]
    exact ih m (fun pf hpf => hall pf (List.mem_cons_of_mem _ hpf))

/-- C10: `include_file` never overwrites an existing entry of
`include_files` - any path already present keeps its stored value, so only
absent paths gain entries - and calling it twice with the same argument
leaves the map exactly as after the first call (idempotence). -/
theorem include_file_no_overwrite_idempotent {β : Type}
    (g : Str → List (Str × β) × List Str) (m : List (Str × β)) (path : Str) :
    (∀ (p : Str) (v : β), dictGet? m p = some v →
      dictGet? (include_file g m path).1 p = some v) ∧
    (include_file g (include_file g m path).1 path).1 = (include_file g m path).1 := by
  constructor
  · intro p v h
    exact addMissing_preserves (g path).1 m p v h
  · show addMissing (addMissing m (g path).1) (g path).1 = addMissing m (g path).1
    exact addMissing_noop (g path).1 _ (addMissing_mem (g path).1 m)

/-- A concrete `get_include_files` stand-in for the C10 witness: the given
path plus a sibling, no invalid paths. -/
def gEx : Str → List (Str × Nat) × List Str := fun p => ([(p, 1), (['s'], 2)], [])

/-- Witness for C10: an existing entry for `a` (value 7) survives
`include_file` with a `g` that also yields `a`, and the call is idempotent. -/
theorem include_file_no_overwrite_idempotent_witness :
    (dictGet? [(['a'], 7)] ['a'] = some 7 ∧
      dictGet? (include_file gEx [(['a'], 7)] ['a']).1 ['a'] = some 7) ∧
    (include_file gEx (include_file gEx [(['a'], 7)] ['a']).1 ['a']).1 =
      (include_file gEx [(['a'], 7)] ['a']).1 :=
  ⟨⟨by decide,
      (include_file_no_overwrite_idempotent gEx [(['a'], 7)] ['a']).1 ['a'] 7 (by decide)⟩,
    (include_file_no_overwrite_idempotent gEx [(['a'], 7)] ['a']).2⟩

end CodeContextM

/-! ## Session main loop (mentat/session.py `Session._main`, lines 126-200) -/

namespace SessionM

/-- The outcome of one iteration body of the `while True` loop of
`Session._main`: either the body completes (yielding the next
`need_user_request` flag), or it raises one of the exceptions caught at the
loop boundary (session.py lines 193-200). -/
inductive TurnResult where
  | completed (need_user_request : Bool)
  | sessionExit
  | contextSizeInsufficient
  | apiTimeout
  | rateLimit
  | badRequest
deriving DecidableEq

/-- How the loop ended. -/
inductive LoopExit where
  | sessionExit
  | providerError
deriving DecidableEq

/-- The `try/except` skeleton of `Session._main`'s main loop, run against a
script of turn outcomes: `SessionExit` breaks; `ContextSizeInsufficient`
sets `need_user_request = True` and continues; `APITimeoutError`,
`RateLimitError` and `BadRequestError` print the provider error and break.
Returns the `need_user_request` flag at the top of each executed iteration
(the iteration prompts the user exactly when it is `true`) and how the
loop ended (`none`: the script ran out with the loop still running). -/
def mainLoop : List TurnResult → Bool → List Bool × Option LoopExit
  | [], _ => ([], none)
  | t :: ts, nur =>
    match t with
    | .completed nr =>
      let r := mainLoop ts nr
      (nur :: r.1, r.2)
    | .sessionExit => ([nur], some .sessionExit)
    | .contextSizeInsufficient =>
      let r := mainLoop ts true
      (nur :: r.1, r.2)
    | .apiTimeout => ([nur], some .providerError)
    | .rateLimit => ([nur], some .providerError)
    | .badRequest => ([nur], some .providerError)

/-- The first outcome in a script that escapes the loop. -/
def firstExit : List TurnResult → Option LoopExit
  | [] => none
  | t :: ts =>
    match t with
    | .completed _ => firstExit ts
    | .contextSizeInsufficient => firstExit ts
    | .sessionExit => some .sessionExit
    | .apiTimeout => some .providerError
    | .rateLimit => some .providerError
    | .badRequest => some .providerError

/-- Counterexample to C7: a provider error (here an API timeout) does not
abort only the turn - it breaks out of the main loop. With the script
`[apiTimeout, completed]` only one iteration runs (one prompt), the loop
ends with a provider error, and the second scripted turn - which C7 says
should have prompted the user again - is never reached. -/
theorem mainLoop_provider_error_breaks :
    mainLoop [.apiTimeout, .completed true] true = ([true], some .providerError) ∧
    (mainLoop [.apiTimeout, .completed true] true).2 ≠ none := by
  exact ⟨rfl, fun h => by cases h⟩

/-- C7 amended: the main loop is terminated by the first `SessionExit` or
provider error (`APITimeoutError`, `RateLimitError`, `BadRequestError`) in
the script - provider errors break the loop just like `SessionExit` does,
instead of re-prompting - while `ContextSizeInsufficient` and completed
turns never terminate it; and once such an outcome occurs, no later turn is
ever consumed. -/
theorem mainLoop_exit_is_firstExit (ts : List TurnResult) (nur : Bool) :
    (mainLoop ts nur).2 = firstExit ts ∧
    (∀ (e : LoopExit) (ts2 : List TurnResult), firstExit ts = some e →
      mainLoop (ts ++ ts2) nur = mainLoop ts nur) := by
  induction ts generalizing nur with
  | nil =>
    exact ⟨rfl, fun e ts2 h => by cases h⟩
  | cons t ts ih =>
    cases t with
    | completed nr =>
      refine ⟨(ih nr).1, ?_⟩
      intro e ts2 h
      show (nur :: (mainLoop (ts ++ ts2) nr).1, (mainLoop (ts ++ ts2) nr).2) =
        (nur :: (mainLoop ts nr).1, (mainLoop ts nr).2)
      rw [(ih nr).2 e ts2 h]
    | sessionExit => exact ⟨rfl, fun e ts2 h => rfl⟩
    | contextSizeInsufficient =>
      refine ⟨(ih true).1, ?_⟩
      intro e ts2 h
      show (nur :: (mainLoop (ts ++ ts2) true).1, (mainLoop (ts ++ ts2) true).2) =
        (nur :: (mainLoop ts true).1, (mainLoop ts true).2)
      rw [(ih true).2 e ts2 h]
    | apiTimeout => exact ⟨rfl, fun e ts2 h => rfl⟩
    | rateLimit => exact ⟨rfl, fun e ts2 h => rfl⟩
    | badRequest => exact ⟨rfl, fun e ts2 h => rfl⟩

/-- Witness for C7 amended: a script whose first turn hits a rate limit
exits with a provider error and consumes no later turn. -/
theorem mainLoop_exit_is_firstExit_witness :
    firstExit [TurnResult.rateLimit] = some LoopExit.providerError ∧
    mainLoop ([TurnResult.rateLimit] ++ [TurnResult.sessionExit]) true =
      mainLoop [TurnResult.rateLimit] true :=
  ⟨by decide,
    (mainLoop_exit_is_firstExit [TurnResult.rateLimit] true).2
      LoopExit.providerError [TurnResult.sessionExit] (by decide)⟩

end SessionM

/-! ## Agent loop (mentat/agent_handler.py) -/

namespace AgentM

/-- `AgentHandler._determine_commands` (agent_handler.py lines 82-118) as a
function of the LLM response: `none` models the `BadRequestError` path,
which returns `[]`; otherwise `content.strip().split("\n")`. Note that an
empty content yields `[""]`, a nonempty list. -/
def determine_commands (response : Option Str) : List Str :=
  match response with
  | none => []
  | some content => (pstrip content).splitOn '\n'

/-- Python `s.splitlines()` for a string with no leading or trailing
whitespace (it is applied to `.strip()` output): the empty string yields
`[]`, otherwise split on `\n`. (Python's extra Unicode line terminators are
not modelled.) -/
def splitlinesStripped (s : Str) : List Str :=
  if s = [] then [] else s.splitOn '\n'

/-- `AgentHandler.add_agent_context` (agent_handler.py lines 120-158) as a
function of the model response, the `ask_yes_no(default_yes=True)` answer,
and the replacement list the user types after declining. Returns
`need_user_request` and the list of commands that are run. -/
def add_agent_context (response : Option Str) (run_commands : Bool)
    (user_replacement : Str) : Bool × List Str :=
  let commands := determine_commands response
  if commands = [] then (true, [])
  else if run_commands then (false, commands)
  else
    let commands2 := splitlinesStripped (pstrip user_replacement)
    if commands2 = [] then (true, []) else (false, commands2)

/-- Counterexample to C8: the user declines the proposed commands (`ls`) but
supplies a replacement list (`pwd`); `add_agent_context` runs the
replacement and returns `false`, not `true` as the claim states for every
decline. -/
theorem add_agent_context_declined_replacement :
    add_agent_context (some ['l', 's']) false ['p', 'w', 'd'] = (false, [['p', 'w', 'd']]) ∧
    (add_agent_context (some ['l', 's']) false ['p', 'w', 'd']).1 ≠ true := by
  exact ⟨rfl, fun h => by cases h⟩

/-- C8 amended: `add_agent_context` returns `need_user_request = true`
exactly when the model's command list is empty (which happens on a
`BadRequestError`) or the user declined and then supplied an empty
replacement list; in every other case it runs the commands - the model's if
the user accepted, otherwise the user's replacement - and returns `false`. -/
theorem add_agent_context_spec (response : Option Str) (run_commands : Bool)
    (user_replacement : Str) :
    ((add_agent_context response run_commands user_replacement).1 = true ↔
      (determine_commands response = [] ∨
        (run_commands = false ∧ splitlinesStripped (pstrip user_replacement) = []))) ∧
    ((add_agent_context response run_commands user_replacement).1 = false →
      (add_agent_context response run_commands user_replacement).2 =
        (if run_commands then determine_commands response
          else splitlinesStripped (pstrip user_replacement))) := by
  simp only [add_agent_context]
  by_cases h1 : determine_commands response = []
  · rw [if_pos h1]
    constructor
    · simp [h1]
    · intro h; cases h
  · rw [if_neg h1]
    by_cases h2 : run_commands
    · rw [if_pos h2]
      subst h2
      constructor
      · simp [h1]
      · intro _; simp
    · rw [if_neg h2]
      by_cases h3 : splitlinesStripped (pstrip user_replacement) = []
      · rw [if_pos h3]
        constructor
        · simp [h1, h3, h2]
        · intro h; cases h
      · rw [if_neg h3]
        constructor
        · simp [h1, h3, eq_false h2]
        · intro _
          simp [h2]

/-- Witness for C8 amended: accepted commands are run as returned by the
model. -/
theorem add_agent_context_spec_witness :
    (add_agent_context (some ['l', 's']) true []).1 = false ∧
    (add_agent_context (some ['l', 's']) true []).2 =
      (if true then determine_commands (some ['l', 's'])
        else splitlinesStripped (pstrip [])) :=
  ⟨by decide, (add_agent_context_spec (some ['l', 's']) true []).2 (by decide)⟩

end AgentM

/-! ## Session input (mentat/session_input.py) -/

namespace SessionInputM

/-- The `SessionExit` exception. -/
inductive SessionExit where
  | mk
deriving DecidableEq

/-- `collect_user_input` (session_input.py lines 21-35) as a function of the
string data of the stream response: a response whose `.strip()` equals `q`
raises `SessionExit`, any other response is returned unchanged. -/
def collect_user_input (data : Str) : Except SessionExit Str :=
  if pstrip data = "q".data then .error .mk else .ok data

/-- Counterexample to C9: the response `" q"` is not the literal string
`"q"`, yet `collect_user_input` raises `SessionExit` for it, because the
code strips whitespace before comparing. -/
theorem collect_user_input_strips_before_compare :
    ([' ', 'q'] : Str) ≠ "q".data ∧
    collect_user_input [' ', 'q'] = .error .mk := by
  exact ⟨by decide, rfl⟩

/-- C9 amended: `collect_user_input` raises `SessionExit` exactly when the
response data, stripped of surrounding whitespace, equals `"q"`; otherwise
it returns the response unchanged. -/
theorem collect_user_input_spec (data : Str) :
    (collect_user_input data = .error .mk ↔ pstrip data = "q".data) ∧
    (pstrip data ≠ "q".data → collect_user_input data = .ok data) := by
  unfold collect_user_input
  by_cases h : pstrip data = "q".data
  · rw [if_pos h]
    exact ⟨⟨fun _ => h, fun _ => rfl⟩, fun hn => absurd h hn⟩
  · rw [if_neg h]
    constructor
    · constructor
      · intro hc; cases hc
      · intro hc; exact absurd hc h
    · intro _; rfl

/-- Witness for C9 amended at the response `"hi"`. -/
theorem collect_user_input_spec_witness :
    pstrip ['h', 'i'] ≠ "q".data ∧
    collect_user_input ['h', 'i'] = .ok ['h', 'i'] :=
  ⟨by decide, (collect_user_input_spec ['h', 'i']).2 (by decide)⟩

end SessionInputM
